import Mathlib

/-!
Verification development for the `ai-terminal` Tauri backend
(`src-tauri/src`): a shallow embedding in Lean 4 of the safeguard
pattern matcher (`safeguard.rs`), the bounded TTL caches (`cache.rs`,
`harm.rs`), the output-truncation of `record_command_result` (`lib.rs`),
the fix-suggestion pipeline (`fep.rs`), the harm classifier (`harm.rs`),
the completion client (`llm/client.rs`) and the PTY read path (`pty.rs`).

Rust `String`/`&str` values are modelled as `List Char`; byte positions
are recovered through the UTF-8 size of each character, so that the
byte-indexed slicing of the source (which panics off a character
boundary) can be modelled faithfully.  Partial (panicking) operations
return `Option`, with `none` standing for a panic.  The external HTTP
client and `serde_json` are modelled as explicit functional parameters:
the client outcome is an `Except` argument and JSON decoding is an
oracle argument, since both live outside this repository.
-/

namespace AiTerminal

/-- Coerce a Lean string literal to the `List Char` model of Rust strings. -/
def str (s : String) : List Char := s.data

/-- UTF-8 byte width of a character (Rust `char::len_utf8`). -/
def charUtf8Size (c : Char) : Nat :=
  if c.val < 0x80 then 1
  else if c.val < 0x800 then 2
  else if c.val < 0x10000 then 3
  else 4

/-- UTF-8 byte length of a string (Rust `str::len`). -/
def utf8Len (s : List Char) : Nat := (s.map charUtf8Size).sum

/-- ASCII lower-casing of one character, as applied by
`str::to_lowercase` to ASCII text (the dangerous patterns and the
provider names in the source are all ASCII). -/
def lowerChar (c : Char) : Char := c.toLower

/-- `str::to_lowercase`, restricted to the ASCII case mapping. -/
def toLowerStr (s : List Char) : List Char := s.map lowerChar

/-- `str::contains(needle)`: substring containment. -/
def containsSub (hay needle : List Char) : Bool :=
  match hay with
  | [] => needle.isEmpty
  | _ :: t => needle.isPrefixOf hay || containsSub t needle

/-!
## `safeguard.rs`
-/

/-- `safeguard.rs`: the declared list of dangerous command patterns
`DANGEROUS_PATTERNS`, each `(pattern, description, severity)`.  The
Windows-only list is compiled out on Unix targets and is not modelled. -/
def DANGEROUS_PATTERNS : List (List Char × List Char × List Char) :=
  [ (str "rm -rf /", str "Recursive deletion of root filesystem", str "critical"),
    (str "rm -rf /*", str "Recursive deletion of root filesystem", str "critical"),
    (str "rm -rf ~", str "Recursive deletion of home directory", str "critical"),
    (str "rm -rf .", str "Recursive deletion of current directory", str "high"),
    (str "rm -r ", str "Recursive file deletion", str "medium"),
    (str "rm -f ", str "Force file deletion", str "medium"),
    (str ":()\x7b:|:&\x7d;:", str "Fork bomb", str "critical"),
    (str "dd if=/dev/zero", str "Disk write operation", str "high"),
    (str "dd if=/dev/random", str "Disk write operation", str "high"),
    (str "mkfs.", str "Filesystem formatting", str "critical"),
    (str "fdisk ", str "Disk partitioning", str "critical"),
    (str "parted ", str "Disk partitioning", str "high"),
    (str "> /dev/sd", str "Direct disk write", str "critical"),
    (str "chmod 777", str "World-writable permissions", str "medium"),
    (str "chmod -R 777", str "Recursive world-writable permissions", str "high"),
    (str "chown -R", str "Recursive ownership change", str "medium"),
    (str "shutdown", str "System shutdown", str "high"),
    (str "reboot", str "System reboot", str "high"),
    (str "init 0", str "System shutdown", str "high"),
    (str "init 6", str "System reboot", str "high"),
    (str "halt", str "System halt", str "high"),
    (str "poweroff", str "System poweroff", str "high"),
    (str "curl | sh", str "Remote code execution", str "critical"),
    (str "curl | bash", str "Remote code execution", str "critical"),
    (str "wget | sh", str "Remote code execution", str "critical"),
    (str "wget | bash", str "Remote code execution", str "critical"),
    (str "| sh", str "Piped shell execution", str "high"),
    (str "| bash", str "Piped shell execution", str "high"),
    (str "eval ", str "Dynamic code execution", str "medium"),
    (str "> /etc/passwd", str "Passwd file modification", str "critical"),
    (str "> /etc/shadow", str "Shadow file modification", str "critical"),
    (str "mv /* ", str "Moving root filesystem", str "critical"),
    (str "cp /dev/null ", str "Overwriting with null", str "high"),
    (str ":()\x7b :|:& \x7d;:", str "Fork bomb variant", str "critical"),
    (str "history -c", str "Command history deletion", str "medium"),
    (str "shred ", str "Secure file deletion", str "medium"),
    (str "wipefs ", str "Filesystem signature wiping", str "high") ]

/-- `safeguard.rs`: `SafeguardResult`. -/
structure SafeguardResult where
  is_dangerous : Bool
  matched_pattern : Option (List Char)
  description : List Char
  severity : List Char
deriving DecidableEq, Repr

/-- `impl Default for SafeguardResult`. -/
def SafeguardResult.default : SafeguardResult :=
  { is_dangerous := false
    matched_pattern := none
    description := []
    severity := str "low" }

/-- The `for` loop of `check_command_safeguard`: scan the rules in
declared order and return at the first whose lower-cased pattern the
lower-cased command contains. -/
def checkLoop (commandLower : List Char) :
    List (List Char × List Char × List Char) → SafeguardResult
  | [] => SafeguardResult.default
  | (pat, desc, sev) :: rules =>
    if containsSub commandLower (toLowerStr pat) then
      { is_dangerous := true
        matched_pattern := some pat
        description := desc
        severity := sev }
    else checkLoop commandLower rules

/-- `safeguard.rs`: `check_command_safeguard(command, enabled)`. -/
def check_command_safeguard (command : List Char) (enabled : Bool) : SafeguardResult :=
  if !enabled then SafeguardResult.default
  else checkLoop (toLowerStr command) DANGEROUS_PATTERNS

/-!
## `cache.rs` and the cache of `harm.rs`

`Instant` is modelled as a `Nat` timestamp supplied to each operation;
`elapsed()`/`duration_since` at time `now` is the truncated subtraction
`now - created_at`.
-/

/-- `cache.rs`: `CacheEntry` — a stored value with its creation
instant. -/
structure CacheEntry (α : Type) where
  value : α
  created_at : Nat
deriving DecidableEq, Repr

/-- The `HashMap` backing a cache, modelled as an association list with
unique keys; the list order stands for the map's (arbitrary) iteration
order, and inserting a fresh key appends. -/
abbrev Entries (α : Type) := List (String × CacheEntry α)

/-- `HashMap::get`. -/
def cacheLookup {α : Type} (es : Entries α) (k : String) : Option (CacheEntry α) :=
  (es.find? (fun kv => kv.1 == k)).map (fun kv => kv.2)

/-- The fold inside `evict_oldest`: `min_by_key(created_at)` over the
iteration order.  Rust's `Iterator::min_by_key` keeps the first of
several equally-minimal elements, so the accumulator is replaced only
on a strictly smaller timestamp. -/
def oldestKeyAux {α : Type} : Entries α → String → Nat → String
  | [], bk, _ => bk
  | (k, e) :: rest, bk, bt =>
    if e.created_at < bt then oldestKeyAux rest k e.created_at
    else oldestKeyAux rest bk bt

/-- `HashMap::remove` of one key. -/
def eraseKey {α : Type} (k : String) (es : Entries α) : Entries α :=
  es.eraseP (fun kv => kv.1 == k)

/-- `evict_oldest` (identical in `cache.rs` and `harm.rs`): remove the
entry with the smallest creation timestamp, if the cache is
non-empty. -/
def evict_oldest {α : Type} (es : Entries α) : Entries α :=
  match es with
  | [] => es
  | (k0, e0) :: rest => eraseKey (oldestKeyAux rest k0 e0.created_at) es

/-- `evict_expired`: retain only the entries younger than the TTL. -/
def evict_expired {α : Type} (ttl now : Nat) (es : Entries α) : Entries α :=
  es.filter (fun kv => now - kv.2.created_at < ttl)

/-- `HashMap::insert`: overwrite in place when the key is present,
otherwise add the entry. -/
def insertEntry {α : Type} (es : Entries α) (k : String) (e : CacheEntry α) : Entries α :=
  match es with
  | [] => [(k, e)]
  | (k', e') :: rest =>
    if k' == k then (k, e) :: rest else (k', e') :: insertEntry rest k e

/-- `get` of either cache, generic in the TTL: return the stored value
only if an entry exists and its age is below the TTL. -/
def cacheGet {α : Type} (ttl : Nat) (es : Entries α) (k : String) (now : Nat) : Option α :=
  match cacheLookup es k with
  | some e => if now - e.created_at < ttl then some e.value else none
  | none => none

/-- `set` of either cache, generic in TTL and capacity: evict the
oldest entry when at capacity, sweep expired entries, then insert the
new entry with the current timestamp. -/
def cacheSet {α : Type} (ttl cap : Nat) (es : Entries α) (k : String) (v : α)
    (now : Nat) : Entries α :=
  let es1 := if cap ≤ es.length then evict_oldest es else es
  let es2 := evict_expired ttl now es1
  insertEntry es2 k ⟨v, now⟩

/-- `llm/mod.rs`: `Suggestion`. -/
structure Suggestion where
  completion : List Char
  explanation : Option (List Char)
deriving DecidableEq, Repr

/-- `impl Default for Suggestion`. -/
def Suggestion.default : Suggestion :=
  { completion := [], explanation := none }

/-- `cache.rs`: `SuggestionCache::get` with `CACHE_TTL_SECS = 300`. -/
def SuggestionCache.get (es : Entries Suggestion) (input : String) (now : Nat) :
    Option Suggestion :=
  cacheGet 300 es input now

/-- `cache.rs`: `SuggestionCache::set` with `CACHE_TTL_SECS = 300` and
`MAX_CACHE_SIZE = 100`. -/
def SuggestionCache.set (es : Entries Suggestion) (input : String) (s : Suggestion)
    (now : Nat) : Entries Suggestion :=
  cacheSet 300 100 es input s now

/-- `harm.rs`: `HarmResult`. -/
structure HarmResult where
  is_harmful : Bool
  reason : List Char
  severity : List Char
deriving DecidableEq, Repr

/-- `impl Default for HarmResult`. -/
def HarmResult.default : HarmResult :=
  { is_harmful := false, reason := [], severity := str "low" }

/-- `harm.rs`: `HarmCache::get` with `HARM_CACHE_TTL_SECS = 3600`.  The
cache keys entries by the md5 hex digest of the command; the digest
lives outside this repository and is passed as an oracle `md5hex`. -/
def HarmCache.get (md5hex : List Char → String) (es : Entries HarmResult)
    (command : List Char) (now : Nat) : Option HarmResult :=
  cacheGet 3600 es (md5hex command) now

/-- `harm.rs`: `HarmCache::set` with `HARM_CACHE_TTL_SECS = 3600` and
`MAX_HARM_CACHE_SIZE = 100`. -/
def HarmCache.set (md5hex : List Char → String) (es : Entries HarmResult)
    (command : List Char) (r : HarmResult) (now : Nat) : Entries HarmResult :=
  cacheSet 3600 100 es (md5hex command) r now

/-- Repeated `SuggestionCache::set`: fold a list of `(key, time)`
pairs, inserting the same value `v` at each step. -/
def setAll {α : Type} (inserts : List (String × Nat)) (v : α) (es : Entries α) :
    Entries α :=
  inserts.foldl (fun acc kt => cacheSet 300 100 acc kt.1 v kt.2) es

/-!
## `lib.rs`: `record_command_result` output truncation
-/

/-- The byte-indexed string prefix `&s[..n]`, as Rust slices it: `some`
prefix when byte index `n` falls on a character boundary of `s`, `none`
(modelling the slice panic) when `n` falls inside a multi-byte
character or past the end of the string. -/
def byteTake : List Char → Nat → Option (List Char)
  | _, 0 => some []
  | [], _ + 1 => none
  | c :: cs, n + 1 =>
    if charUtf8Size c ≤ n + 1 then
      (byteTake cs (n + 1 - charUtf8Size c)).map (fun p => c :: p)
    else none

/-- `lib.rs`, `record_command_result`: the value stored into
`last_output` — the raw output when it is at most 10240 bytes long,
otherwise the byte slice `&output[..10240]`. -/
def record_command_result_output (output : List Char) : Option (List Char) :=
  if 10240 < utf8Len output then byteTake output 10240 else some output

/-!
## Providers, config, and the AI-client-facing operations

The HTTP client and `serde_json` live outside this repository.  The
client's outcome is passed as an `Except` argument (`.error` models any
failure inside the provider-specific `send_*` helper: request error,
timeout, non-success HTTP status, undecodable body, missing content;
`.ok` the successfully extracted content text), and each
`serde_json::from_str::<T>` call is an oracle argument.  Functions
whose Rust counterparts can panic return `Option`, with `none`
standing for the panic.
-/

/-- `char::is_whitespace` (the Unicode `White_Space` code points), as
used by `str::trim`. -/
def isRustWhitespace (c : Char) : Bool :=
  [0x09, 0x0A, 0x0B, 0x0C, 0x0D, 0x20, 0x85, 0xA0, 0x1680,
   0x2000, 0x2001, 0x2002, 0x2003, 0x2004, 0x2005, 0x2006, 0x2007,
   0x2008, 0x2009, 0x200A, 0x2028, 0x2029, 0x202F, 0x205F, 0x3000].contains c.toNat

/-- `str::trim`. -/
def rustTrim (s : List Char) : List Char :=
  ((s.dropWhile isRustWhitespace).reverse.dropWhile isRustWhitespace).reverse

/-- `str::trim_matches(c)`: strip all leading and trailing occurrences
of one character. -/
def trimMatches (c : Char) (s : List Char) : List Char :=
  ((s.dropWhile (· == c)).reverse.dropWhile (· == c)).reverse

/-- `llm/providers.rs`: `Provider`. -/
inductive Provider where
  | openai
  | anthropic
  | groq
  | ollama
deriving DecidableEq, Repr

/-- `Provider::from_str` (an unknown name defaults to OpenAI). -/
def Provider.from_str (s : List Char) : Provider :=
  if toLowerStr s = str "openai" then .openai
  else if toLowerStr s = str "anthropic" then .anthropic
  else if toLowerStr s = str "groq" then .groq
  else if toLowerStr s = str "ollama" then .ollama
  else .openai

/-- `Provider::requires_api_key`: every provider except Ollama. -/
def Provider.requires_api_key : Provider → Bool
  | .ollama => false
  | _ => true

/-- `config.rs`: `AppConfig`, restricted to the fields the modelled
operations consult; `model`, `endpoint`, `temperature` and the UI
fields only parameterise the abstracted HTTP request. -/
structure AppConfig where
  provider : List Char
  api_key : List Char
  safeguards_enabled : Bool
  harm_detection_enabled : Bool
deriving DecidableEq, Repr

/-- The cleanup `get_completion` applies to the raw reply:
`response.trim().trim_matches(quote).trim_matches(backtick)`. -/
def cleanupResponse (r : List Char) : List Char :=
  trimMatches (Char.ofNat 96) (trimMatches (Char.ofNat 34) (rustTrim r))

/-- Outcome of `llm/client.rs::get_completion`: the returned `Result`
plus whether the AI client was invoked. -/
structure CompletionCall where
  result : Except (List Char) Suggestion
  called_client : Bool

/-- `llm/client.rs`: `get_completion`.  The API-key check runs first;
then inputs whose trimmed byte length is below 2 short-circuit to the
default suggestion; otherwise the provider-specific request is sent
and its cleaned-up reply returned. -/
def get_completion (config : AppConfig) (current_input : List Char)
    (client : Except (List Char) (List Char)) : CompletionCall :=
  if (Provider.from_str config.provider).requires_api_key && config.api_key.isEmpty then
    { result := .error (str "API key is required for " ++ config.provider ++
        str ". Please set it in settings.")
      called_client := false }
  else if utf8Len (rustTrim current_input) < 2 then
    { result := .ok Suggestion.default, called_client := false }
  else
    match client with
    | .error e => { result := .error e, called_client := true }
    | .ok r =>
      { result := .ok { completion := cleanupResponse r, explanation := none }
        called_client := true }

/-- `fep.rs`: `FixSuggestion`. -/
structure FixSuggestion where
  fixed_command : List Char
  explanation : List Char
  confidence : List Char
deriving DecidableEq, Repr

/-- `impl Default for FixSuggestion`: the "no confident fix" value. -/
def FixSuggestion.default : FixSuggestion :=
  { fixed_command := []
    explanation := str "Unable to suggest a fix."
    confidence := str "low" }

/-- `fep.rs`: `ErrorContext`. -/
structure ErrorContext where
  command : List Char
  exit_code : Int
  output : List Char
  cwd : List Char
  history : List (List Char)

/-- `str::find(c)`: position of the first occurrence.  Positions are
in characters; `\x7b` and `\x7d` are one byte each, so character order
and adjacency agree with the byte positions Rust uses. -/
def idxOfFirst (c : Char) (s : List Char) : Option Nat :=
  s.findIdx? (· == c)

/-- `str::rfind(c)`: position of the last occurrence. -/
def idxOfLast (c : Char) (s : List Char) : Option Nat :=
  (s.reverse.findIdx? (· == c)).map (fun i => s.length - 1 - i)

/-- `fep.rs`: `parse_fep_response` with `serde_json::from_str` as the
oracle `jp`: try the whole response, then the slice from the first
`\x7b` to the last `\x7d` inclusive, then fall back to the default.
The slice `&response[start..=end]` panics (`none`) when the first
`\x7b` starts more than one position past the last `\x7d`. -/
def parse_fep_response (jp : List Char → Option FixSuggestion)
    (response : List Char) : Option FixSuggestion :=
  match jp response with
  | some parsed => some parsed
  | none =>
    match idxOfFirst (Char.ofNat 123) response with
    | none => some FixSuggestion.default
    | some s =>
      match idxOfLast (Char.ofNat 125) response with
      | none => some FixSuggestion.default
      | some e =>
        if s ≤ e + 1 then
          match jp ((response.drop s).take (e + 1 - s)) with
          | some parsed => some parsed
          | none => some FixSuggestion.default
        else none

/-- `fep.rs`: `get_error_fix`.  `none` models a panic (the 2000-byte
output truncation of `get_fep_user_prompt` slicing off a character
boundary, or the brace slice of `parse_fep_response`); otherwise
`some` of the Rust `Result`. -/
def get_error_fix (config : AppConfig) (ctx : ErrorContext)
    (jp : List Char → Option FixSuggestion)
    (client : Except (List Char) (List Char)) :
    Option (Except (List Char) FixSuggestion) :=
  if (Provider.from_str config.provider).requires_api_key && config.api_key.isEmpty then
    some (.error (str "API key is required for error analysis."))
  else if 2000 < utf8Len ctx.output ∧ byteTake ctx.output 2000 = none then
    none
  else
    match client with
    | .error e => some (.error e)
    | .ok r => (parse_fep_response jp r).map .ok

/-- `harm.rs`: `parse_harm_response`, the same shape as
`parse_fep_response`, with `HarmResult` and its own `serde` oracle. -/
def parse_harm_response (jp : List Char → Option HarmResult)
    (response : List Char) : Option HarmResult :=
  match jp response with
  | some parsed => some parsed
  | none =>
    match idxOfFirst (Char.ofNat 123) response with
    | none => some HarmResult.default
    | some s =>
      match idxOfLast (Char.ofNat 125) response with
      | none => some HarmResult.default
      | some e =>
        if s ≤ e + 1 then
          match jp ((response.drop s).take (e + 1 - s)) with
          | some parsed => some parsed
          | none => some HarmResult.default
        else none

/-- `harm.rs`: `check_command_harm`: empty commands and a missing
required API key short-circuit to the default (not harmful) result;
any client failure is converted to the default result; a successful
response is parsed best-effort. -/
def check_command_harm (config : AppConfig) (command : List Char)
    (jp : List Char → Option HarmResult)
    (client : Except (List Char) (List Char)) :
    Option (Except (List Char) HarmResult) :=
  if (rustTrim command).isEmpty then some (.ok HarmResult.default)
  else if (Provider.from_str config.provider).requires_api_key && config.api_key.isEmpty then
    some (.ok HarmResult.default)
  else
    match client with
    | .ok r => (parse_harm_response jp r).map .ok
    | .error _ => some (.ok HarmResult.default)

/-!
## `pty.rs`: the session read path
-/

/-- A UTF-8 continuation byte: `0x80..=0xBF`. -/
def isCont (b : Nat) : Bool := 0x80 ≤ b && b ≤ 0xBF

/-- The allowed range of the first continuation byte after lead `b`:
the lead byte restricts it for `0xE0`, `0xED`, `0xF0`, `0xF4`, per the
UTF-8 well-formedness table the Rust standard library decodes with. -/
def isCont1 (b b1 : Nat) : Bool :=
  if b = 0xE0 then 0xA0 ≤ b1 && b1 ≤ 0xBF
  else if b = 0xED then 0x80 ≤ b1 && b1 ≤ 0x9F
  else if b = 0xF0 then 0x90 ≤ b1 && b1 ≤ 0xBF
  else if b = 0xF4 then 0x80 ≤ b1 && b1 ≤ 0x8F
  else isCont b1

/-- The replacement character U+FFFD. -/
def replacementChar : Char := Char.ofNat 0xFFFD

/-- `String::from_utf8_lossy` of the Rust standard library (external
to this repository): decode UTF-8 bytes, substituting U+FFFD for each
maximal valid prefix of an ill-formed sequence.  Total by
construction: decoding never fails on any byte content. -/
def utf8Lossy : List Nat → List Char
  | [] => []
  | b :: rest =>
    if b < 0x80 then Char.ofNat b :: utf8Lossy rest
    else if 0xC2 ≤ b ∧ b ≤ 0xDF then
      match rest with
      | [] => [replacementChar]
      | b1 :: r1 =>
        if isCont b1 then
          Char.ofNat ((b - 0xC0) * 0x40 + (b1 - 0x80)) :: utf8Lossy r1
        else replacementChar :: utf8Lossy (b1 :: r1)
    else if 0xE0 ≤ b ∧ b ≤ 0xEF then
      match rest with
      | [] => [replacementChar]
      | b1 :: r1 =>
        if isCont1 b b1 then
          match r1 with
          | [] => [replacementChar]
          | b2 :: r2 =>
            if isCont b2 then
              Char.ofNat ((b - 0xE0) * 0x1000 + (b1 - 0x80) * 0x40 + (b2 - 0x80)) ::
                utf8Lossy r2
            else replacementChar :: utf8Lossy (b2 :: r2)
        else replacementChar :: utf8Lossy (b1 :: r1)
    else if 0xF0 ≤ b ∧ b ≤ 0xF4 then
      match rest with
      | [] => [replacementChar]
      | b1 :: r1 =>
        if isCont1 b b1 then
          match r1 with
          | [] => [replacementChar]
          | b2 :: r2 =>
            if isCont b2 then
              match r2 with
              | [] => [replacementChar]
              | b3 :: r3 =>
                if isCont b3 then
                  Char.ofNat ((b - 0xF0) * 0x40000 + (b1 - 0x80) * 0x1000 +
                      (b2 - 0x80) * 0x40 + (b3 - 0x80)) :: utf8Lossy r3
                else replacementChar :: utf8Lossy (b3 :: r3)
            else replacementChar :: utf8Lossy (b2 :: r2)
        else replacementChar :: utf8Lossy (b1 :: r1)
    else replacementChar :: utf8Lossy rest
termination_by l => l.length
decreasing_by all_goals (simp only [List.length_cons]; omega)

/-- Standard UTF-8 encoding of one character (the inverse direction,
used to check that `utf8Lossy` really is a decoding on well-formed
input). -/
def utf8EncodeChar (c : Char) : List Nat :=
  let v := c.toNat
  if v < 0x80 then [v]
  else if v < 0x800 then [0xC0 + v / 0x40, 0x80 + v % 0x40]
  else if v < 0x10000 then
    [0xE0 + v / 0x1000, 0x80 + (v / 0x40) % 0x40, 0x80 + v % 0x40]
  else
    [0xF0 + v / 0x40000, 0x80 + (v / 0x1000) % 0x40, 0x80 + (v / 0x40) % 0x40,
     0x80 + v % 0x40]

/-- Standard UTF-8 encoding of a string. -/
def utf8Encode (s : List Char) : List Nat :=
  (s.map utf8EncodeChar).flatten

/-- `pty.rs`: `PtyManager::read`: take and clear the shared buffer and
decode it lossily; an empty buffer yields the empty string without
touching the (already empty) buffer.  The result pairs the decoded
text with the buffer contents after the call.  The source's only `Err`
path is a poisoned lock, which cannot arise in this sequential model,
so the result is always `Ok`. -/
def PtyManager.read (buf : List Nat) : Except (List Char) (List Char × List Nat) :=
  if buf.isEmpty then .ok ([], buf)
  else .ok (utf8Lossy buf, [])

/-- 101 concrete inserts with distinct keys at times 0, …, 100: the key
inserted at time `i` is the string of `i` letters `a`. -/
def witnessInserts : List (String × Nat) :=
  (List.range 101).map (fun i => (String.mk (List.replicate i 'a'), i))

/-!
## Theorems

Supporting lemmas first, then one theorem per spec claim (with its
counterexample or witness where applicable).
-/

theorem checkLoop_shape (cl : List Char) :
    ∀ rules : List (List Char × List Char × List Char),
      checkLoop cl rules = SafeguardResult.default ∨
      ∃ p d s, (p, d, s) ∈ rules ∧
        checkLoop cl rules =
          { is_dangerous := true, matched_pattern := some p,
            description := d, severity := s }
  | [] => Or.inl rfl
  | (p, d, s) :: rules => by
    by_cases h : containsSub cl (toLowerStr p) = true
    · exact Or.inr ⟨p, d, s, List.mem_cons_self _ _, by simp [checkLoop, h]⟩
    · rcases checkLoop_shape cl rules with h' | ⟨p', d', s', hm, h'⟩
      · exact Or.inl (by simp [checkLoop, h, h'])
      · exact Or.inr ⟨p', d', s', List.mem_cons_of_mem _ hm, by simp [checkLoop, h, h']⟩

/-- `checkLoop` agrees with the first rule found by `List.find?`:
either no rule's lower-cased pattern is contained in the lower-cased
command and the result is the default, or the first such rule in
declared order supplies the result. -/
theorem checkLoop_eq_find? (cl : List Char) :
    ∀ rules : List (List Char × List Char × List Char),
      checkLoop cl rules =
        match rules.find? (fun r => containsSub cl (toLowerStr r.1)) with
        | none => SafeguardResult.default
        | some (p, d, s) =>
          { is_dangerous := true, matched_pattern := some p,
            description := d, severity := s }
  | [] => rfl
  | (p, d, s) :: rules => by
    cases h : containsSub cl (toLowerStr p) with
    | true => simp [checkLoop, h, List.find?]
    | false => simpa [checkLoop, h, List.find?] using checkLoop_eq_find? cl rules

/-- C2 (counterexample): the rule `("| bash", "Piped shell execution",
"high")` is declared, and the command `"wget | bash"` contains its
pattern, yet `check_command_safeguard` returns the severity and
description of the earlier rule `"wget | bash"` (`critical`, `"Remote
code execution"`), not this rule's — so a matching rule does not always
supply its own severity/description. -/
theorem safeguard_rule_severity_cex :
    (str "| bash", str "Piped shell execution", str "high") ∈ DANGEROUS_PATTERNS ∧
    containsSub (toLowerStr (str "wget | bash")) (toLowerStr (str "| bash")) = true ∧
    check_command_safeguard (str "wget | bash") true =
      { is_dangerous := true
        matched_pattern := some (str "wget | bash")
        description := str "Remote code execution"
        severity := str "critical" } ∧
    (check_command_safeguard (str "wget | bash") true).severity ≠ str "high" := by
  refine ⟨by decide, by decide, by decide, by decide⟩

/-- C2 (amended): with safeguards enabled, the *first* rule in declared
order whose lower-cased pattern is contained in the lower-cased command
supplies the result (`is_dangerous = true` with that rule's pattern,
description and severity); a command containing no rule's pattern yields
the default result with `is_dangerous = false`. -/
theorem check_command_safeguard_first_match (cmd : List Char) :
    (∀ p d s,
        DANGEROUS_PATTERNS.find? (fun r => containsSub (toLowerStr cmd) (toLowerStr r.1)) =
            some (p, d, s) →
        check_command_safeguard cmd true =
          { is_dangerous := true, matched_pattern := some p,
            description := d, severity := s }) ∧
    (DANGEROUS_PATTERNS.find? (fun r => containsSub (toLowerStr cmd) (toLowerStr r.1)) =
        none →
      check_command_safeguard cmd true = SafeguardResult.default) := by
  have h := checkLoop_eq_find? (toLowerStr cmd) DANGEROUS_PATTERNS
  constructor
  · intro p d s hf
    rw [check_command_safeguard, h, hf]
    rfl
  · intro hf
    rw [check_command_safeguard, h, hf]
    rfl

/-- C2 (witness): `check("rm -rf /", true)` matches the first declared
rule and reports `critical`. -/
theorem check_command_safeguard_first_match_witness :
    check_command_safeguard (str "rm -rf /") true =
      { is_dangerous := true
        matched_pattern := some (str "rm -rf /")
        description := str "Recursive deletion of root filesystem"
        severity := str "critical" } :=
  (check_command_safeguard_first_match (str "rm -rf /")).1
    (str "rm -rf /") (str "Recursive deletion of root filesystem") (str "critical")
    (by decide)

/-- C10: every `check_command_safeguard` result satisfies the
invariant: `is_dangerous` holds iff `matched_pattern` is `some`, and a
non-dangerous result carries severity `"low"` and an empty
description. -/
theorem check_command_safeguard_invariant (cmd : List Char) (enabled : Bool) :
    ((check_command_safeguard cmd enabled).is_dangerous = true ↔
      (check_command_safeguard cmd enabled).matched_pattern.isSome = true) ∧
    ((check_command_safeguard cmd enabled).is_dangerous = false →
      (check_command_safeguard cmd enabled).severity = str "low" ∧
      (check_command_safeguard cmd enabled).description = []) := by
  rw [check_command_safeguard]
  cases enabled with
  | false => exact ⟨by simp [SafeguardResult.default], fun _ => ⟨rfl, rfl⟩⟩
  | true =>
    simp only [Bool.not_true, Bool.false_eq_true, if_false]
    rcases checkLoop_shape (toLowerStr cmd) DANGEROUS_PATTERNS with h | ⟨p, d, s, _, h⟩ <;>
      rw [h]
    · exact ⟨by simp [SafeguardResult.default], fun _ => ⟨rfl, rfl⟩⟩
    · exact ⟨by simp, by intro hx; cases hx⟩

/-- C10 (witness): the invariant instantiated at `check("ls -la",
true)`. -/
theorem check_command_safeguard_invariant_witness :
    ((check_command_safeguard (str "ls -la") true).is_dangerous = true ↔
      (check_command_safeguard (str "ls -la") true).matched_pattern.isSome = true) ∧
    ((check_command_safeguard (str "ls -la") true).is_dangerous = false →
      (check_command_safeguard (str "ls -la") true).severity = str "low" ∧
      (check_command_safeguard (str "ls -la") true).description = []) :=
  check_command_safeguard_invariant (str "ls -la") true

theorem cacheLookup_insertEntry_self {α : Type} (k : String) (e : CacheEntry α) :
    ∀ es : Entries α, cacheLookup (insertEntry es k e) k = some e
  | [] => by simp [insertEntry, cacheLookup, List.find?]
  | (k', e') :: rest => by
    cases h : k' == k with
    | true =>
      simp only [insertEntry, h, if_true]
      simp [cacheLookup, List.find?]
    | false =>
      simp only [insertEntry, h, Bool.false_eq_true, if_false]
      simpa [cacheLookup, List.find?, h] using cacheLookup_insertEntry_self k e rest

/-- C7: `set(key, value)` followed by `get(key)` before the TTL has
elapsed returns exactly `value`; generic in TTL and capacity, covering
the suggestion cache (TTL 300) and the harm cache (TTL 3600). -/
theorem cacheGet_cacheSet_fresh {α : Type} (ttl cap : Nat) (es : Entries α)
    (k : String) (v : α) (tset tnow : Nat) (h : tnow - tset < ttl) :
    cacheGet ttl (cacheSet ttl cap es k v tset) k tnow = some v := by
  unfold cacheSet cacheGet
  rw [cacheLookup_insertEntry_self]
  simp [h]

/-- C7 (witness): the spec scenario — `set("git ch", suggestion)` at
time 0, `get("git ch")` at time 10 (inside the 300 s TTL) returns the
suggestion. -/
theorem cacheGet_cacheSet_fresh_witness :
    (10 : Nat) - 0 < 300 ∧
    cacheGet 300 (cacheSet 300 100 ([] : Entries Suggestion) "git ch" Suggestion.default 0)
        "git ch" 10 = some Suggestion.default :=
  ⟨by decide,
   cacheGet_cacheSet_fresh 300 100 [] "git ch" Suggestion.default 0 10 (by decide)⟩

/-- C8: once the entry stored under a key has age ≥ TTL, `get` returns
`none`, even though the entry is still physically stored in the
map. -/
theorem cacheGet_expired {α : Type} (ttl : Nat) (es : Entries α) (k : String)
    (now : Nat) (e : CacheEntry α) (hs : cacheLookup es k = some e)
    (hage : ttl ≤ now - e.created_at) :
    cacheGet ttl es k now = none := by
  unfold cacheGet
  rw [hs]
  simp [Nat.not_lt.mpr hage]

/-- C8 (witness): an entry created at time 0 is still stored at time
300 but `get` with TTL 300 no longer returns it. -/
theorem cacheGet_expired_witness :
    cacheLookup ([("git ch", ⟨Suggestion.default, 0⟩)] : Entries Suggestion) "git ch" =
      some ⟨Suggestion.default, 0⟩ ∧
    (300 : Nat) ≤ 300 - 0 ∧
    cacheGet 300 ([("git ch", ⟨Suggestion.default, 0⟩)] : Entries Suggestion)
        "git ch" 300 = none :=
  ⟨by simp [cacheLookup, List.find?], by decide,
   cacheGet_expired 300 _ "git ch" 300 ⟨Suggestion.default, 0⟩
     (by simp [cacheLookup, List.find?]) (by decide)⟩

theorem insertEntry_of_fresh {α : Type} (k : String) (e : CacheEntry α) :
    ∀ es : Entries α, k ∉ es.map Prod.fst → insertEntry es k e = es ++ [(k, e)]
  | [], _ => rfl
  | (k', e') :: rest, h => by
    have h' : ¬(k = k' ∨ k ∈ rest.map Prod.fst) := by simpa using h
    have hk : (k' == k) = false :=
      beq_eq_false_iff_ne.mpr (fun hx => h' (Or.inl hx.symm))
    simp only [insertEntry, hk, Bool.false_eq_true, if_false]
    rw [insertEntry_of_fresh k e rest (fun hx => h' (Or.inr hx))]
    rfl

theorem evict_expired_of_young {α : Type} (ttl now : Nat) (es : Entries α)
    (h : ∀ kv ∈ es, now - kv.2.created_at < ttl) :
    evict_expired ttl now es = es := by
  unfold evict_expired
  exact List.filter_eq_self.mpr (fun kv hkv => by simpa using h kv hkv)

theorem oldestKeyAux_of_min {α : Type} :
    ∀ (rest : Entries α) (bk : String) (bt : Nat),
      (∀ kv ∈ rest, bt ≤ kv.2.created_at) →
      oldestKeyAux rest bk bt = bk
  | [], _, _, _ => rfl
  | (k, e) :: rest, bk, bt, h => by
    have h1 : ¬ e.created_at < bt :=
      Nat.not_lt.mpr (h (k, e) (List.mem_cons_self _ _))
    simp only [oldestKeyAux, if_neg h1]
    exact oldestKeyAux_of_min rest bk bt (fun kv hkv => h kv (List.mem_cons_of_mem _ hkv))

theorem evict_oldest_head_min {α : Type} (k0 : String) (e0 : CacheEntry α)
    (rest : Entries α) (hmin : ∀ kv ∈ rest, e0.created_at ≤ kv.2.created_at) :
    evict_oldest ((k0, e0) :: rest) = rest := by
  show eraseKey (oldestKeyAux rest k0 e0.created_at) ((k0, e0) :: rest) = rest
  rw [oldestKeyAux_of_min rest k0 e0.created_at hmin]
  simp [eraseKey, List.eraseP_cons]

theorem cacheLookup_of_absent {α : Type} (es : Entries α) (k : String)
    (h : k ∉ es.map Prod.fst) : cacheLookup es k = none := by
  have hf : es.find? (fun kv => kv.1 == k) = none :=
    List.find?_eq_none.mpr
      (fun kv hkv hbeq => h (List.mem_map.mpr ⟨kv, hkv, beq_iff_eq.mp hbeq⟩))
  simp [cacheLookup, hf]

theorem cacheLookup_embed {α : Type} (v : α) :
    ∀ (l : List (String × Nat)) (k : String) (t : Nat),
      (l.map Prod.fst).Nodup → (k, t) ∈ l →
      cacheLookup (l.map (fun kt => (kt.1, (⟨v, kt.2⟩ : CacheEntry α)))) k =
        some ⟨v, t⟩
  | [], k, t, _, hm => absurd hm (List.not_mem_nil _)
  | (k', t') :: rest, k, t, hnd, hm => by
    rw [List.map_cons] at hnd
    have hnd' := List.nodup_cons.mp hnd
    rcases List.mem_cons.mp hm with he | hm'
    · simp only [Prod.mk.injEq] at he
      obtain ⟨rfl, rfl⟩ := he
      simp [cacheLookup, List.find?]
    · have hk : k ≠ k' := by
        intro he
        subst he
        exact hnd'.1 (List.mem_map.mpr ⟨(k, t), hm', rfl⟩)
      have hb : (k' == k) = false := beq_eq_false_iff_ne.mpr (Ne.symm hk)
      simpa [cacheLookup, List.find?, hb] using
        cacheLookup_embed v rest k t hnd'.2 hm'

theorem setAll_fresh {α : Type} (v : α) :
    ∀ (todo : List (String × Nat)) (es : Entries α),
      es.length + todo.length ≤ 100 →
      (∀ kt ∈ todo, kt.1 ∉ es.map Prod.fst) →
      (todo.map Prod.fst).Nodup →
      (∀ kv ∈ es, ∀ kt ∈ todo, kt.2 - kv.2.created_at < 300) →
      todo.Pairwise (fun a b => b.2 - a.2 < 300) →
      setAll todo v es = es ++ todo.map (fun kt => (kt.1, (⟨v, kt.2⟩ : CacheEntry α)))
  | [], es, _, _, _, _, _ => by simp [setAll]
  | (k, t) :: todo, es, hlen, hfresh, hnd, hyoung, hpw => by
    rw [List.map_cons] at hnd
    have hnd' := List.nodup_cons.mp hnd
    have hpw' := List.pairwise_cons.mp hpw
    have hlt : ¬ (100 ≤ es.length) := by
      simp only [List.length_cons] at hlen
      omega
    have hstep : cacheSet 300 100 es k v t = es ++ [(k, ⟨v, t⟩)] := by
      simp only [cacheSet]
      rw [if_neg hlt, evict_expired_of_young 300 t es
            (fun kv hkv => hyoung kv hkv (k, t) (List.mem_cons_self _ _)),
          insertEntry_of_fresh k ⟨v, t⟩ es (hfresh (k, t) (List.mem_cons_self _ _))]
    have hl : (es ++ [(k, (⟨v, t⟩ : CacheEntry α))]).length + todo.length ≤ 100 := by
      simp only [List.length_append, List.length_cons, List.length_nil] at *
      omega
    have hf : ∀ kt ∈ todo, kt.1 ∉ (es ++ [(k, (⟨v, t⟩ : CacheEntry α))]).map Prod.fst := by
      intro kt hkt
      have h1 : kt.1 ∉ es.map Prod.fst := hfresh kt (List.mem_cons_of_mem _ hkt)
      have h2 : kt.1 ≠ k := fun he =>
        hnd'.1 (he ▸ List.mem_map.mpr ⟨kt, hkt, rfl⟩)
      simp [h1, h2]
    have hy : ∀ kv ∈ es ++ [(k, (⟨v, t⟩ : CacheEntry α))], ∀ kt ∈ todo,
        kt.2 - kv.2.created_at < 300 := by
      intro kv hkv kt hkt
      rcases List.mem_append.mp hkv with h1 | h1
      · exact hyoung kv h1 kt (List.mem_cons_of_mem _ hkt)
      · have he : kv = (k, (⟨v, t⟩ : CacheEntry α)) := by simpa using h1
        subst he
        exact hpw'.1 kt hkt
    have hrec := setAll_fresh v todo (es ++ [(k, ⟨v, t⟩)]) hl hf hnd'.2 hy hpw'.2
    calc setAll ((k, t) :: todo) v es
        = setAll todo v (es ++ [(k, ⟨v, t⟩)]) := by
          simp [setAll, List.foldl_cons, hstep]
      _ = es ++ ((k, t) :: todo).map (fun kt => (kt.1, (⟨v, kt.2⟩ : CacheEntry α))) := by
          rw [hrec]
          simp

theorem cacheSet_at_capacity {α : Type} (k0 : String) (e0 : CacheEntry α)
    (rest : Entries α) (k : String) (v : α) (t : Nat)
    (hlen : rest.length = 99)
    (hmin : ∀ kv ∈ rest, e0.created_at ≤ kv.2.created_at)
    (hyoung : ∀ kv ∈ rest, t - kv.2.created_at < 300)
    (hfresh : k ∉ rest.map Prod.fst) :
    cacheSet 300 100 ((k0, e0) :: rest) k v t = rest ++ [(k, ⟨v, t⟩)] := by
  simp only [cacheSet]
  have hcap : 100 ≤ ((k0, e0) :: rest).length := by simp [hlen]
  rw [if_pos hcap, evict_oldest_head_min k0 e0 rest hmin,
      evict_expired_of_young 300 t rest hyoung,
      insertEntry_of_fresh k ⟨v, t⟩ rest hfresh]

/-- C6: starting from the empty cache, 101 `set`s (capacity 100) with
pairwise-distinct keys at strictly increasing times, all inside one TTL
window, leave exactly 100 entries; the entry evicted is the one with
the earliest creation timestamp — the first key set — and every later
key is still stored with its own timestamp. -/
theorem setAll_101_evicts_oldest {α : Type} (v : α) (inserts : List (String × Nat))
    (hlen : inserts.length = 101)
    (hkeys : (inserts.map Prod.fst).Nodup)
    (htimes : inserts.Pairwise (fun a b => a.2 < b.2 ∧ b.2 - a.2 < 300)) :
    (setAll inserts v []).length = 100 ∧
    (∀ hd ∈ inserts.head?, cacheLookup (setAll inserts v []) hd.1 = none) ∧
    (∀ kt ∈ inserts.tail,
      cacheLookup (setAll inserts v []) kt.1 = some ⟨v, kt.2⟩) := by
  obtain ⟨last, hlast⟩ : ∃ a, inserts.drop 100 = [a] := by
    have hd : (inserts.drop 100).length = 1 := by rw [List.length_drop, hlen]
    exact List.length_eq_one.mp hd
  have hsplit : inserts = inserts.take 100 ++ [last] := by
    rw [← hlast]
    exact (List.take_append_drop 100 inserts).symm
  have hlen100 : (inserts.take 100).length = 100 := by
    rw [List.length_take, hlen]
    omega
  obtain ⟨hd0, tail100, h100⟩ : ∃ hd0 tail100, inserts.take 100 = hd0 :: tail100 := by
    cases hc : inserts.take 100 with
    | nil => rw [hc] at hlen100; simp at hlen100
    | cons a l => exact ⟨a, l, rfl⟩
  have hlen99 : tail100.length = 99 := by
    rw [h100] at hlen100
    simpa using hlen100
  have hpw_split : (inserts.take 100 ++ [last]).Pairwise
      (fun a b => a.2 < b.2 ∧ b.2 - a.2 < 300) := hsplit ▸ htimes
  have hpw := List.pairwise_append.mp hpw_split
  have hkeys_split : ((inserts.take 100 ++ [last]).map Prod.fst).Nodup :=
    hsplit ▸ hkeys
  rw [List.map_append] at hkeys_split
  have hkn := List.nodup_append.mp hkeys_split
  have hA : setAll (inserts.take 100) v [] =
      (inserts.take 100).map (fun kt => (kt.1, (⟨v, kt.2⟩ : CacheEntry α))) := by
    have h := setAll_fresh v (inserts.take 100) []
      (by simp [hlen100])
      (fun kt _ => by simp)
      hkn.1
      (fun kv hkv => absurd hkv (List.not_mem_nil _))
      (hpw.1.imp (fun h => h.2))
    simpa using h
  have hfold : setAll inserts v [] =
      cacheSet 300 100 (setAll (inserts.take 100) v []) last.1 v last.2 := by
    conv_lhs => rw [hsplit]
    simp [setAll, List.foldl_append]
  have hpw100 := List.pairwise_cons.mp (h100 ▸ hpw.1)
  have hminB : ∀ kv ∈ tail100.map (fun kt => (kt.1, (⟨v, kt.2⟩ : CacheEntry α))),
      (⟨v, hd0.2⟩ : CacheEntry α).created_at ≤ kv.2.created_at := by
    intro kv hkv
    obtain ⟨kt, hkt, rfl⟩ := List.mem_map.mp hkv
    exact Nat.le_of_lt (hpw100.1 kt hkt).1
  have hyoungB : ∀ kv ∈ tail100.map (fun kt => (kt.1, (⟨v, kt.2⟩ : CacheEntry α))),
      last.2 - kv.2.created_at < 300 := by
    intro kv hkv
    obtain ⟨kt, hkt, rfl⟩ := List.mem_map.mp hkv
    have hmem : kt ∈ inserts.take 100 := by
      rw [h100]
      exact List.mem_cons_of_mem _ hkt
    exact (hpw.2.2 kt hmem last (List.mem_singleton.mpr rfl)).2
  have hfreshB : last.1 ∉
      (tail100.map (fun kt => (kt.1, (⟨v, kt.2⟩ : CacheEntry α)))).map Prod.fst := by
    intro hmem
    have h1 : last.1 ∈ tail100.map Prod.fst := by
      simpa [List.map_map, Function.comp] using hmem
    have h2 : last.1 ∈ (inserts.take 100).map Prod.fst := by
      rw [h100, List.map_cons]
      exact List.mem_cons_of_mem _ h1
    exact (hkn.2.2 h2) (List.mem_singleton.mpr rfl)
  have hB : setAll inserts v [] =
      (tail100 ++ [last]).map (fun kt => (kt.1, (⟨v, kt.2⟩ : CacheEntry α))) := by
    rw [hfold, hA, h100, List.map_cons]
    rw [cacheSet_at_capacity hd0.1 ⟨v, hd0.2⟩ _ last.1 v last.2
          (by simpa using hlen99) hminB hyoungB hfreshB]
    simp
  have htail : inserts.tail = tail100 ++ [last] := by
    rw [hsplit, h100]
    rfl
  have htailkeys : ((tail100 ++ [last]).map Prod.fst).Nodup := by
    have : (inserts.map Prod.fst).Nodup := hkeys
    rw [hsplit, h100] at this
    have h2 : ((hd0 :: (tail100 ++ [last])).map Prod.fst).Nodup := by
      simpa using this
    rw [List.map_cons] at h2
    exact (List.nodup_cons.mp h2).2
  refine ⟨?_, ?_, ?_⟩
  · rw [hB]
    simp [hlen99]
  · intro hd hhd
    have hh : inserts.head? = some hd0 := by
      rw [hsplit, h100]
      rfl
    rw [hh] at hhd
    have heq : hd0 = hd := by simpa using hhd
    rw [hB, ← heq]
    apply cacheLookup_of_absent
    intro hmem
    have h1 : hd0.1 ∈ (tail100 ++ [last]).map Prod.fst := by
      simpa [List.map_map, Function.comp] using hmem
    have h2 : ((hd0 :: (tail100 ++ [last])).map Prod.fst).Nodup := by
      have := hkeys
      rw [hsplit, h100] at this
      simpa using this
    rw [List.map_cons] at h2
    exact (List.nodup_cons.mp h2).1 h1
  · intro kt hkt
    rw [htail] at hkt
    rw [hB]
    exact cacheLookup_embed v (tail100 ++ [last]) kt.1 kt.2 htailkeys
      (by simpa using hkt)

/-- C6 (witness): the 101 concrete inserts of `witnessInserts` (times
0, …, 100) leave 100 entries; the key set at time 0 is gone and every
later key remains with its timestamp. -/
theorem setAll_101_evicts_oldest_witness :
    (setAll witnessInserts Suggestion.default []).length = 100 ∧
    (∀ hd ∈ witnessInserts.head?,
      cacheLookup (setAll witnessInserts Suggestion.default []) hd.1 = none) ∧
    (∀ kt ∈ witnessInserts.tail,
      cacheLookup (setAll witnessInserts Suggestion.default []) kt.1 =
        some ⟨Suggestion.default, kt.2⟩) :=
  setAll_101_evicts_oldest Suggestion.default witnessInserts
    (by simp [witnessInserts])
    (by
      have hinj : Function.Injective (fun i : Nat => String.mk (List.replicate i 'a')) := by
        intro a b h
        have h2 := congrArg (fun s : String => s.data.length) h
        simpa using h2
      have hn : ((List.range 101).map
          (fun i => String.mk (List.replicate i 'a'))).Nodup :=
        (List.nodup_range 101).map hinj
      simpa [witnessInserts, List.map_map, Function.comp_def] using hn)
    (by
      have h1 : (List.range 101).Pairwise (· < ·) := List.pairwise_lt_range 101
      have h2 : (List.range 101).Pairwise (fun a b => a < b ∧ b - a < 300) := by
        refine h1.imp_of_mem ?_
        intro a b ha hb hab
        exact ⟨hab, by have := List.mem_range.mp hb; omega⟩
      simpa [witnessInserts, List.pairwise_map] using h2)

theorem utf8Len_append (s t : List Char) : utf8Len (s ++ t) = utf8Len s + utf8Len t := by
  simp [utf8Len]

theorem utf8Len_replicate_a (n : Nat) : utf8Len (List.replicate n 'a') = n := by
  induction n with
  | zero => rfl
  | succ m ih =>
    rw [List.replicate_succ]
    simp only [utf8Len, List.map_cons, List.sum_cons] at *
    rw [show charUtf8Size 'a' = 1 from by decide, ih]
    omega

theorem byteTake_replicate_a :
    ∀ (n : Nat) (l : List Char) (m : Nat),
      byteTake (List.replicate n 'a' ++ l) (n + m) =
        (byteTake l m).map (fun p => List.replicate n 'a' ++ p)
  | 0, l, m => by
    cases h : byteTake l m <;> simp [h]
  | n + 1, l, m => by
    rw [Nat.succ_add]
    have hsz : charUtf8Size 'a' = 1 := by decide
    simp only [List.replicate_succ, List.cons_append, byteTake, hsz]
    rw [if_pos (show 1 ≤ n + m + 1 by omega)]
    have harg : n + m + 1 - 1 = n + m := by omega
    rw [harg]
    show Option.map (fun p => 'a' :: p) (byteTake (List.replicate n 'a' ++ l) (n + m)) =
      Option.map (fun p => 'a' :: (List.replicate n 'a' ++ p)) (byteTake l m)
    rw [byteTake_replicate_a n l m]
    cases h : byteTake l m <;> simp [h]

/-- C5 (code bug): `record_command_result` truncates the output with
the byte slice `&output[..10240]`, which panics when byte 10240 falls
inside a multi-byte UTF-8 character.  Concretely, an output of 10239
`a`s followed by `é` (10241 bytes in total, byte 10240 inside the
two-byte `é`) makes the truncation panic (`none`) instead of storing a
≤ 10240-byte prefix. -/
theorem record_command_result_output_panics :
    record_command_result_output (List.replicate 10239 'a' ++ [Char.ofNat 233]) = none := by
  have hlen : utf8Len (List.replicate 10239 'a' ++ [Char.ofNat 233]) = 10241 := by
    rw [utf8Len_append, utf8Len_replicate_a]
    decide
  rw [record_command_result_output, if_pos (by rw [hlen]; omega)]
  have h1 : (10240 : Nat) = 10239 + 1 := by norm_num
  rw [h1, byteTake_replicate_a 10239 [Char.ofNat 233] 1]
  have h2 : byteTake [Char.ofNat 233] 1 = none := by decide
  rw [h2]
  rfl

/-- C3: with harm detection enabled, any failure of the AI client
during harm classification (network error, timeout, non-success
status, undecodable response body — all of which surface as the
client's `.error` outcome) makes `check_command_harm` return `Ok` with
the default not-harmful result (`is_harmful = false`, severity
`"low"`), never an error. -/
theorem check_command_harm_fail_open (config : AppConfig) (command : List Char)
    (jp : List Char → Option HarmResult) (e : List Char)
    (henabled : config.harm_detection_enabled = true) :
    check_command_harm config command jp (.error e) =
      some (.ok HarmResult.default) := by
  unfold check_command_harm
  split_ifs <;> rfl

/-- C3 (witness): a harm check for `rm -rf /` under an enabled,
keyed OpenAI config whose client times out yields `Ok` of the default
result. -/
theorem check_command_harm_fail_open_witness :
    ({ provider := str "openai", api_key := str "sk-1", safeguards_enabled := true,
       harm_detection_enabled := true } : AppConfig).harm_detection_enabled = true ∧
    check_command_harm
      { provider := str "openai", api_key := str "sk-1", safeguards_enabled := true,
        harm_detection_enabled := true }
      (str "rm -rf /") (fun _ => none) (.error (str "Request failed: timeout")) =
      some (.ok HarmResult.default) :=
  ⟨rfl,
   check_command_harm_fail_open
     { provider := str "openai", api_key := str "sk-1", safeguards_enabled := true,
       harm_detection_enabled := true }
     (str "rm -rf /") (fun _ => none) (str "Request failed: timeout") rfl⟩

/-- C4 (counterexample): two concrete refutations.  (a) With provider
`"openai"` and an empty API key, a completion request for the empty
input (0 non-whitespace characters) returns a hard error — the key
check runs before the short-input check — not the empty default
suggestion.  (b) With provider `"ollama"` (no key required), the
single-character input `é` has fewer than 2 non-whitespace characters,
yet `get_completion` calls the AI client: the short-input test
compares the trimmed length in BYTES, and `é` is two bytes. -/
theorem get_completion_short_input_cex :
    (get_completion
      { provider := str "openai", api_key := [], safeguards_enabled := true,
        harm_detection_enabled := true } [] (.ok [])).result =
      .error (str "API key is required for openai. Please set it in settings.") ∧
    (get_completion
      { provider := str "ollama", api_key := [], safeguards_enabled := true,
        harm_detection_enabled := true } [Char.ofNat 233] (.ok [])).called_client = true :=
  ⟨rfl, rfl⟩

/-- C4 (amended): for every configuration that passes the API-key
check (the provider requires no key, or the key is non-empty), every
input whose trimmed UTF-8 byte length is below 2 makes
`get_completion` return the empty default suggestion without calling
the AI client and without an error, whatever the client would have
replied; a credentialed provider with an empty key instead yields a
hard error before the input is examined. -/
theorem get_completion_short_input (config : AppConfig) (input : List Char)
    (client : Except (List Char) (List Char))
    (hkey : (Provider.from_str config.provider).requires_api_key = false ∨
      config.api_key ≠ [])
    (hshort : utf8Len (rustTrim input) < 2) :
    get_completion config input client =
      { result := .ok Suggestion.default, called_client := false } := by
  have hc : ((Provider.from_str config.provider).requires_api_key &&
      config.api_key.isEmpty) = false := by
    rcases hkey with h | h
    · simp [h]
    · have he : config.api_key.isEmpty = false := by
        cases hk : config.api_key with
        | nil => exact absurd hk h
        | cons a l => rfl
      simp [he]
  unfold get_completion
  simp only [hc, Bool.false_eq_true, if_false, if_pos hshort]

/-- C4 (witness): the keyless Ollama provider with input `" a"` (one
non-whitespace character, one trimmed byte) yields the default
suggestion without a client call. -/
theorem get_completion_short_input_witness :
    ((Provider.from_str (str "ollama")).requires_api_key = false ∨
      (str "" : List Char) ≠ []) ∧
    utf8Len (rustTrim (str " a")) < 2 ∧
    get_completion
      { provider := str "ollama", api_key := str "", safeguards_enabled := true,
        harm_detection_enabled := true } (str " a") (.error (str "unreachable")) =
      { result := .ok Suggestion.default, called_client := false } :=
  ⟨Or.inl (by decide), by decide,
   get_completion_short_input
     { provider := str "ollama", api_key := str "", safeguards_enabled := true,
       harm_detection_enabled := true }
     (str " a") (.error (str "unreachable")) (Or.inl (by decide)) (by decide)⟩

/-- C1 (counterexample): two concrete refutations of "always the
default, never an error, on total failure to obtain or parse a
structured fix".  (a) When the AI client itself fails (here a request
timeout) — so no structured fix is obtained — `get_error_fix`
propagates the error instead of returning the default.  (b) When a
response is obtained whose first `\x7b` starts more than one position
past its last `\x7d` (here `"ab\x7dc\x7bd"`), the brace-extraction
slice panics instead of falling back to the default. -/
theorem get_error_fix_default_cex :
    get_error_fix
      { provider := str "openai", api_key := str "sk-1", safeguards_enabled := true,
        harm_detection_enabled := true }
      { command := str "gti status", exit_code := 1, output := [], cwd := [],
        history := [] }
      (fun _ => none) (.error (str "Request failed: timeout")) =
      some (.error (str "Request failed: timeout")) ∧
    parse_fep_response (fun _ => none) (str "ab\x7dc\x7bd") = none :=
  ⟨rfl, by decide⟩

/-- C1 (amended): when the API-key check passes, the captured output
does not trip the 2000-byte prompt-truncation panic, and the AI client
does yield a response text, then on total failure to parse a
structured fix from that response — both the whole-response parse and
the brace-extraction parse failing, the first `\x7b` (if any) not
starting more than one position past the last `\x7d` — `get_error_fix`
returns `Ok` with the default "no confident fix" result rather than an
error.  Failures to *obtain* a response (missing API key, client
failure) are instead surfaced as errors. -/
theorem get_error_fix_parse_fail_default (config : AppConfig) (ctx : ErrorContext)
    (jp : List Char → Option FixSuggestion) (r : List Char)
    (hkey : ((Provider.from_str config.provider).requires_api_key &&
      config.api_key.isEmpty) = false)
    (hout : ¬(2000 < utf8Len ctx.output ∧ byteTake ctx.output 2000 = none))
    (hjp : jp r = none)
    (hbrace : ∀ s e, idxOfFirst (Char.ofNat 123) r = some s →
      idxOfLast (Char.ofNat 125) r = some e →
      s ≤ e + 1 ∧ jp ((r.drop s).take (e + 1 - s)) = none) :
    get_error_fix config ctx jp (.ok r) = some (.ok FixSuggestion.default) := by
  have hp : parse_fep_response jp r = some FixSuggestion.default := by
    unfold parse_fep_response
    rw [hjp]
    cases hf : idxOfFirst (Char.ofNat 123) r with
    | none => rfl
    | some s =>
      cases hl : idxOfLast (Char.ofNat 125) r with
      | none => rfl
      | some e =>
        obtain ⟨h1, h2⟩ := hbrace s e hf hl
        simp only [h2, if_pos h1]
  unfold get_error_fix
  simp only [hkey, Bool.false_eq_true, if_false, if_neg hout, hp, Option.map_some]
  rfl

/-- C1 (witness): a keyless Ollama fix request whose client replies
with unparseable brace-free text yields `Ok` of the default "no
confident fix" value. -/
theorem get_error_fix_parse_fail_default_witness :
    ((Provider.from_str (str "ollama")).requires_api_key &&
      (str "" : List Char).isEmpty) = false ∧
    get_error_fix
      { provider := str "ollama", api_key := str "", safeguards_enabled := true,
        harm_detection_enabled := true }
      { command := str "gti status", exit_code := 1, output := [], cwd := [],
        history := [] }
      (fun _ => none) (.ok (str "cannot help")) = some (.ok FixSuggestion.default) :=
  ⟨by decide,
   get_error_fix_parse_fail_default
     { provider := str "ollama", api_key := str "", safeguards_enabled := true,
       harm_detection_enabled := true }
     { command := str "gti status", exit_code := 1, output := [], cwd := [],
       history := [] }
     (fun _ => none) (str "cannot help") (by decide) (by decide) rfl
     (fun s e h1 _ => by
       rw [show idxOfFirst (Char.ofNat 123) (str "cannot help") = none from by decide] at h1
       exact Option.noConfusion h1)⟩

theorem char_valid_nat (c : Char) :
    c.toNat < 0xd800 ∨ (0xdfff < c.toNat ∧ c.toNat < 0x110000) := by
  rcases c.valid with h | ⟨ha, hb⟩
  · exact Or.inl (UInt32.toNat_lt_of_lt (by decide) h)
  · exact Or.inr ⟨UInt32.lt_toNat_of_lt (by decide) ha,
      UInt32.toNat_lt_of_lt (by decide) hb⟩

/-- Decoding the UTF-8 encoding of one character at the head of a byte
stream yields that character and continues with the rest. -/
theorem utf8Lossy_encodeChar (c : Char) (l : List Nat) :
    utf8Lossy (utf8EncodeChar c ++ l) = c :: utf8Lossy l := by
  have hv := char_valid_nat c
  by_cases h1 : c.toNat < 0x80
  · have henc : utf8EncodeChar c = [c.toNat] := by
      simp only [utf8EncodeChar, if_pos h1]
    rw [henc, List.cons_append, List.nil_append, utf8Lossy.eq_def]
    simp only [if_pos h1, Char.ofNat_toNat]
  · by_cases h2 : c.toNat < 0x800
    · have henc : utf8EncodeChar c =
          [0xC0 + c.toNat / 0x40, 0x80 + c.toNat % 0x40] := by
        simp only [utf8EncodeChar, if_neg h1, if_pos h2]
      rw [henc, List.cons_append, List.cons_append, List.nil_append,
        utf8Lossy.eq_def]
      have hb1 : ¬ (0xC0 + c.toNat / 0x40 < 0x80) := by omega
      have hb2 : 0xC2 ≤ 0xC0 + c.toNat / 0x40 ∧ 0xC0 + c.toNat / 0x40 ≤ 0xDF :=
        ⟨by omega, by omega⟩
      have hcont : isCont (0x80 + c.toNat % 0x40) = true := by
        simp only [isCont, Bool.and_eq_true, decide_eq_true_eq]
        exact ⟨by omega, by omega⟩
      have harith : (0xC0 + c.toNat / 0x40 - 0xC0) * 0x40 +
          (0x80 + c.toNat % 0x40 - 0x80) = c.toNat := by omega
      simp only [if_neg hb1, if_pos hb2, hcont, eq_self_iff_true, if_true,
        harith, Char.ofNat_toNat]
    · by_cases h3 : c.toNat < 0x10000
      · have henc : utf8EncodeChar c =
            [0xE0 + c.toNat / 0x1000, 0x80 + (c.toNat / 0x40) % 0x40,
             0x80 + c.toNat % 0x40] := by
          simp only [utf8EncodeChar, if_neg h1, if_neg h2, if_pos h3]
        rw [henc, List.cons_append, List.cons_append, List.cons_append,
          List.nil_append, utf8Lossy.eq_def]
        have hb1 : ¬ (0xE0 + c.toNat / 0x1000 < 0x80) := by omega
        have hb2 : ¬ (0xC2 ≤ 0xE0 + c.toNat / 0x1000 ∧
            0xE0 + c.toNat / 0x1000 ≤ 0xDF) := by omega
        have hb3 : 0xE0 ≤ 0xE0 + c.toNat / 0x1000 ∧
            0xE0 + c.toNat / 0x1000 ≤ 0xEF := ⟨by omega, by omega⟩
        have hcont1 : isCont1 (0xE0 + c.toNat / 0x1000)
            (0x80 + (c.toNat / 0x40) % 0x40) = true := by
          unfold isCont1 isCont
          split_ifs with hA hB hC hD
          all_goals simp only [Bool.and_eq_true, decide_eq_true_eq]
          all_goals constructor
          all_goals rcases hv with hva | ⟨hva, hvb⟩
          all_goals omega
        have hcont2 : isCont (0x80 + c.toNat % 0x40) = true := by
          simp only [isCont, Bool.and_eq_true, decide_eq_true_eq]
          exact ⟨by omega, by omega⟩
        have harith : (0xE0 + c.toNat / 0x1000 - 0xE0) * 0x1000 +
            (0x80 + (c.toNat / 0x40) % 0x40 - 0x80) * 0x40 +
            (0x80 + c.toNat % 0x40 - 0x80) = c.toNat := by omega
        simp only [if_neg hb1, if_neg hb2, if_pos hb3, hcont1, hcont2,
          eq_self_iff_true, if_true, harith, Char.ofNat_toNat]
      · have h4 : c.toNat < 0x110000 := by
          rcases hv with h | ⟨_, h⟩ <;> omega
        have henc : utf8EncodeChar c =
            [0xF0 + c.toNat / 0x40000, 0x80 + (c.toNat / 0x1000) % 0x40,
             0x80 + (c.toNat / 0x40) % 0x40, 0x80 + c.toNat % 0x40] := by
          simp only [utf8EncodeChar, if_neg h1, if_neg h2, if_neg h3]
        rw [henc, List.cons_append, List.cons_append, List.cons_append,
          List.cons_append, List.nil_append, utf8Lossy.eq_def]
        have hb1 : ¬ (0xF0 + c.toNat / 0x40000 < 0x80) := by omega
        have hb2 : ¬ (0xC2 ≤ 0xF0 + c.toNat / 0x40000 ∧
            0xF0 + c.toNat / 0x40000 ≤ 0xDF) := by omega
        have hb3 : ¬ (0xE0 ≤ 0xF0 + c.toNat / 0x40000 ∧
            0xF0 + c.toNat / 0x40000 ≤ 0xEF) := by omega
        have hb4 : 0xF0 ≤ 0xF0 + c.toNat / 0x40000 ∧
            0xF0 + c.toNat / 0x40000 ≤ 0xF4 := ⟨by omega, by omega⟩
        have hcont1 : isCont1 (0xF0 + c.toNat / 0x40000)
            (0x80 + (c.toNat / 0x1000) % 0x40) = true := by
          unfold isCont1 isCont
          split_ifs with hA hB hC hD
          all_goals simp only [Bool.and_eq_true, decide_eq_true_eq]
          all_goals constructor
          all_goals rcases hv with hva | ⟨hva, hvb⟩
          all_goals omega
        have hcont2 : isCont (0x80 + (c.toNat / 0x40) % 0x40) = true := by
          simp only [isCont, Bool.and_eq_true, decide_eq_true_eq]
          exact ⟨by omega, by omega⟩
        have hcont3 : isCont (0x80 + c.toNat % 0x40) = true := by
          simp only [isCont, Bool.and_eq_true, decide_eq_true_eq]
          exact ⟨by omega, by omega⟩
        have harith : (0xF0 + c.toNat / 0x40000 - 0xF0) * 0x40000 +
            (0x80 + (c.toNat / 0x1000) % 0x40 - 0x80) * 0x1000 +
            (0x80 + (c.toNat / 0x40) % 0x40 - 0x80) * 0x40 +
            (0x80 + c.toNat % 0x40 - 0x80) = c.toNat := by omega
        simp only [if_neg hb1, if_neg hb2, if_neg hb3, if_pos hb4, hcont1,
          hcont2, hcont3, eq_self_iff_true, if_true, harith, Char.ofNat_toNat]

/-- `utf8Lossy` really is a UTF-8 decoding: it inverts the standard
encoding on every well-formed input. -/
theorem utf8Lossy_utf8Encode : ∀ s : List Char, utf8Lossy (utf8Encode s) = s
  | [] => by rw [utf8Lossy.eq_def]; rfl
  | c :: s => by
    show utf8Lossy (utf8EncodeChar c ++ utf8Encode s) = c :: s
    rw [utf8Lossy_encodeChar, utf8Lossy_utf8Encode s]

/-- On ill-formed input, `utf8Lossy` substitutes U+FFFD and keeps
decoding instead of failing: a stray continuation byte, a truncated
sequence, and an over-long `0xE0 0x80` each become replacement
characters. -/
theorem utf8Lossy_invalid_examples :
    utf8Lossy [0x68, 0xFF, 0x69] = [Char.ofNat 0x68, replacementChar, Char.ofNat 0x69] ∧
    utf8Lossy [0xC3, 0xA9] = [Char.ofNat 0xE9] ∧
    utf8Lossy [0xE0, 0x80] = [replacementChar, replacementChar] ∧
    utf8Lossy [0xC3] = [replacementChar] := by
  refine ⟨?_, ?_, ?_, ?_⟩ <;>
    norm_num [utf8Lossy.eq_def, isCont, isCont1]

/-- C9: for every byte content of the shared output buffer — valid or
invalid UTF-8 — `read()` succeeds: it returns the best-effort lossy
decoding of the entire buffered content (the empty string when the
buffer is empty) and leaves the shared buffer empty afterwards;
decoding is total and never causes a failure. -/
theorem ptyManager_read_spec (buf : List Nat) :
    PtyManager.read buf = .ok (utf8Lossy buf, []) := by
  unfold PtyManager.read
  cases buf with
  | nil => rw [utf8Lossy.eq_def]; rfl
  | cons b rest => rfl

end AiTerminal
